import Mathlib

/-!
Verification of the schema-resolution and parsing pipeline of `final_app.py`
(an app that turns whitespace-delimited measurement files with human-readable
headers into a time-indexed table for plotting).

Python strings are embedded as `List Char` (`Str`); each Python string
operation used by the source (`strip`, `startswith`, `split`, `lstrip`,
`rstrip`, f-string formatting of integers) is given an explicit executable
definition.  Stateful code (the module-level globals `uploaded_df` and
`timestamp_column`) is embedded as explicit state passing over a `Session`
structure; remote fetches appear as `Except`-valued inputs.
-/

/-- Python `str` modelled as a list of characters. -/
abbrev Str := List Char

/-- `p` is a leading substring of `s` — models Python `s.startswith(p)`. -/
def hasPrefixStr : Str → Str → Bool
  | _, [] => true
  | [], _ :: _ => false
  | c :: s, d :: p => c == d && hasPrefixStr s p

/-- Python `s.strip()`: drop whitespace from both ends. -/
def pyStrip (s : Str) : Str :=
  ((s.dropWhile Char.isWhitespace).reverse.dropWhile Char.isWhitespace).reverse

/-- Python `s.lstrip(chars)`: drop every leading character belonging to the set. -/
def pyLstripSet (s : Str) (chars : List Char) : Str :=
  s.dropWhile (fun c => c ∈ chars)

/-- Python `s.rstrip(chars)`: drop every trailing character belonging to the set. -/
def pyRstripSet (s : Str) (chars : List Char) : Str :=
  (s.reverse.dropWhile (fun c => c ∈ chars)).reverse

/-- The text after the first `:` of `s`, when `s` contains one — models
`s.split(":", 1)[1]` guarded by `len(parts) > 1`. -/
def splitAfterColon (s : Str) : Option Str :=
  if ':' ∈ s then some ((s.dropWhile (fun c => c ≠ ':')).tail) else none

/-- The text before the first `,` — models `s.split(",")[0]`. -/
def takeBeforeComma (s : Str) : Str := s.takeWhile (fun c => c ≠ ',')

/-- Helper of `pySplitWs`: accumulate the current word (reversed) while scanning. -/
def wordsAux : Str → Str → List Str
  | [], acc => if acc.isEmpty then [] else [acc.reverse]
  | c :: cs, acc =>
    if c.isWhitespace then
      if acc.isEmpty then wordsAux cs [] else acc.reverse :: wordsAux cs []
    else wordsAux cs (c :: acc)

/-- Python `s.split()` with no argument: split on whitespace runs, no empty fields. -/
def pySplitWs (s : Str) : List Str := wordsAux s []

/-- The character of a decimal digit. -/
def digitChar (d : Nat) : Char :=
  if d = 0 then '0' else if d = 1 then '1' else if d = 2 then '2'
  else if d = 3 then '3' else if d = 4 then '4' else if d = 5 then '5'
  else if d = 6 then '6' else if d = 7 then '7' else if d = 8 then '8' else '9'

/-- Little-endian decimal digits of `n`, with explicit fuel so that the
definition is structural and evaluates inside the kernel. -/
def natToRevDigits : Nat → Nat → List Nat
  | 0, _ => []
  | fuel + 1, n => if n = 0 then [] else n % 10 :: natToRevDigits fuel (n / 10)

/-- Python `str(n)` for a non-negative integer: its decimal numeral. -/
def natRepr (n : Nat) : Str :=
  if n = 0 then ['0'] else ((natToRevDigits n n).map digitChar).reverse

/-! ## Header Schema Extractor (`extract_column_names`, final_app.py lines 136-156) -/

/-- Lookup in the assoc list embedding the Python dict `seen_names`. -/
def lookupSeen : List (Str × Nat) → Str → Option Nat
  | [], _ => none
  | (k', v) :: rest, k => if k' = k then some v else lookupSeen rest k

/-- Store `v` under `k` in the assoc list embedding `seen_names`. -/
def setSeen : List (Str × Nat) → Str → Nat → List (Str × Nat)
  | [], k, v => [(k, v)]
  | (k', v') :: rest, k, v =>
    if k' = k then (k, v) :: rest else (k', v') :: setSeen rest k v

/-- A line qualifies as a column declaration iff its stripped text starts with
`"Column"` and does not start with `"From"` (final_app.py line 143). -/
def isColumnDeclLine (line : Str) : Bool :=
  hasPrefixStr (pyStrip line) "Column".data && !hasPrefixStr (pyStrip line) "From".data

/-- The base column name a header line declares, when it does: split at the
first colon, strip the right part, keep the text before the first comma
(final_app.py lines 143-147). -/
def baseNameOfLine (line : Str) : Option Str :=
  if isColumnDeclLine line then
    match splitAfterColon line with
    | some afterColon => some (takeBeforeComma (pyStrip afterColon))
    | none => none
  else none

/-- Disambiguate one base name against `seen_names` and append the unique name
(final_app.py lines 148-155): a first occurrence keeps the bare name and records
counter 0, a repeat increments the counter and appends `base_counter`. -/
def addName (st : List (Str × Nat) × List Str) (base : Str) :
    List (Str × Nat) × List Str :=
  match lookupSeen st.1 base with
  | some c => (setSeen st.1 base (c + 1), st.2 ++ [base ++ '_' :: natRepr (c + 1)])
  | none => (setSeen st.1 base 0, st.2 ++ [base])

/-- One loop iteration of `extract_column_names`: non-declaration lines leave
the state alone. -/
def extractStep (st : List (Str × Nat) × List Str) (line : Str) :
    List (Str × Nat) × List Str :=
  match baseNameOfLine line with
  | none => st
  | some base => addName st base

/-- `extract_column_names` (final_app.py lines 136-156): scan every line,
collecting the disambiguated declared column names in encounter order. -/
def extract_column_names (lines : List Str) : List Str :=
  (lines.foldl extractStep ([], [])).2

/-! ## Schema Reconciler (final_app.py lines 189-195) -/

/-- The synthetic name `f"Unnamed_{i}"` used to pad an under-declared schema. -/
def mkUnnamed (i : Nat) : Str := "Unnamed".data ++ '_' :: natRepr i

/-- Schema reconciliation (final_app.py lines 189-195): count the whitespace
fields of the first data row; when fewer names are declared, extend with
`Unnamed_i` for `i` in `range(len(column_names), actual_field_count)`. -/
def reconcile (column_names : List Str) (sample_row : Str) : List Str :=
  let actual_field_count := (pySplitWs sample_row).length
  if column_names.length < actual_field_count then
    column_names ++
      (List.range' column_names.length (actual_field_count - column_names.length)).map mkUnnamed
  else column_names

/-! ## Tabular Builder and Timestamp Resolver (final_app.py lines 197-214) -/

/-- One scalar of the parsed table: a raw string field, a missing value
(pandas `NaN`), or a normalized datetime where `none` is pandas `NaT`. -/
inductive Cell where
  | str : Str → Cell
  | nan : Cell
  | dt : Option Nat → Cell
deriving DecidableEq

/-- The row-parsing stage of `pd.read_csv(..., delim_whitespace=True,
names=..., on_bad_lines="skip")` once the `names` argument has been accepted:
each line becomes its whitespace fields; blank lines are skipped; a line with
more fields than names is a bad line and is skipped; a line with fewer fields
is padded with `NaN`. -/
def read_csv_ws (lines : List Str) (names : List Str) : List (List Cell) :=
  lines.filterMap fun line =>
    let toks := pySplitWs line
    if toks.isEmpty then none
    else if names.length < toks.length then none
    else some (toks.map Cell.str ++ List.replicate (names.length - toks.length) Cell.nan)

/-- The full `pd.read_csv` call of final_app.py line 198, including pandas'
validation of the `names` argument: a duplicate column name raises
`ValueError("Duplicate names are not allowed.")`, which the surrounding
`except` of `process_selected_file` catches. -/
def read_csv (lines : List Str) (names : List Str) : Except Str (List (List Cell)) :=
  if names.Nodup then Except.ok (read_csv_ws lines names)
  else Except.error "Duplicate names are not allowed.".data

/-- Consume exactly one expected character. -/
def expectChar (c : Char) : Str → Option Str
  | [] => none
  | d :: s => if d = c then some s else none

/-- Consume exactly `n` decimal digits, returning their value. -/
def readDigitsAux : Nat → Str → Nat → Option (Nat × Str)
  | 0, s, acc => some (acc, s)
  | _ + 1, [], _ => none
  | n + 1, c :: s, acc =>
    if c.isDigit then readDigitsAux n s (acc * 10 + (c.toNat - '0'.toNat)) else none

/-- Consume exactly `n` decimal digits. -/
def readDigits (n : Nat) (s : Str) : Option (Nat × Str) := readDigitsAux n s 0

/-- The value of a digit string, most significant first. -/
def digitsVal (ds : Str) : Nat :=
  ds.foldl (fun acc c => acc * 10 + (c.toNat - '0'.toNat)) 0

/-- Consume one to six fractional-second digits (`%f`), scaled to microseconds. -/
def readFrac (s : Str) : Option (Nat × Str) :=
  let ds := s.takeWhile Char.isDigit
  if ds.length = 0 ∨ 6 < ds.length then none
  else some (digitsVal ds * 10 ^ (6 - ds.length), s.dropWhile Char.isDigit)

/-- `pd.to_datetime(value, format="%Y%m%dT%H%M%S.%fZ")` on one string: parse
year, month, day, `T`, hour, minute, second, `.`, fractional seconds, `Z`,
with the usual calendar field bounds; the result is an order-preserving
microsecond-resolution encoding of the instant. -/
def parseTs (s : Str) : Option Nat := do
  let (y, s) ← readDigits 4 s
  let (mo, s) ← readDigits 2 s
  let (d, s) ← readDigits 2 s
  let s ← expectChar 'T' s
  let (h, s) ← readDigits 2 s
  let (mi, s) ← readDigits 2 s
  let (sec, s) ← readDigits 2 s
  let s ← expectChar '.' s
  let (frac, s) ← readFrac s
  let s ← expectChar 'Z' s
  if s.isEmpty ∧ 1 ≤ mo ∧ mo ≤ 12 ∧ 1 ≤ d ∧ d ≤ 31 ∧ h ≤ 23 ∧ mi ≤ 59 ∧ sec ≤ 61 then
    some ((((((y * 100 + mo) * 100 + d) * 100 + h) * 100 + mi) * 100 + sec) * 1000000 + frac)
  else none

/-- `pd.to_datetime(..., errors="coerce")` on one cell: unparsable values and
missing values become `NaT` rather than aborting. -/
def to_datetime_cell : Cell → Cell
  | .str v => .dt (parseTs v)
  | .nan => .dt none
  | .dt v => .dt v

/-- Apply `f` at position `idx` of a row, leaving the other cells alone. -/
def mapAt (f : Cell → Cell) : Nat → List Cell → List Cell
  | _, [] => []
  | 0, c :: row => f c :: row
  | n + 1, c :: row => c :: mapAt f n row

/-- The cell of a row at a column index (`NaN` when the row is too short). -/
def getCell (idx : Nat) (row : List Cell) : Cell := row.getD idx Cell.nan

/-- `df[ts] = pd.to_datetime(df[ts], ...)` (final_app.py line 212): convert the
timestamp column of every row. -/
def to_datetime (idx : Nat) (rows : List (List Cell)) : List (List Cell) :=
  rows.map (mapAt to_datetime_cell idx)

/-- Helper of `drop_duplicates`: keep a row only when its key cell has not been
seen yet, scanning in file order (pandas `keep="first"`). -/
def dropDupGo (idx : Nat) (seen : List Cell) : List (List Cell) → List (List Cell)
  | [] => []
  | r :: rs =>
    if getCell idx r ∈ seen then dropDupGo idx seen rs
    else r :: dropDupGo idx (getCell idx r :: seen) rs

/-- `df.drop_duplicates(subset=[ts])` (final_app.py line 213): remove every row
whose timestamp cell equals that of an earlier row. -/
def drop_duplicates (idx : Nat) (rows : List (List Cell)) : List (List Cell) :=
  dropDupGo idx [] rows

/-- The sort key of a timestamp cell: its datetime value, `none` for `NaT`. -/
def cellKey : Cell → Option Nat
  | .dt v => v
  | _ => none

/-- Comparison on datetime keys with `NaT` sorted last (pandas
`na_position="last"`). -/
def optLeB : Option Nat → Option Nat → Bool
  | _, none => true
  | none, some _ => false
  | some a, some b => decide (a ≤ b)

/-- Row ordering by the timestamp column. -/
def rowLe (idx : Nat) (r r' : List Cell) : Prop :=
  optLeB (cellKey (getCell idx r)) (cellKey (getCell idx r')) = true

instance rowLeDecidable (idx : Nat) : DecidableRel (rowLe idx) := fun r r' =>
  inferInstanceAs (Decidable (optLeB (cellKey (getCell idx r)) (cellKey (getCell idx r')) = true))

instance rowLeTotalInst (idx : Nat) : IsTotal (List Cell) (rowLe idx) where
  total r r' := by
    unfold rowLe
    generalize cellKey (getCell idx r) = a
    generalize cellKey (getCell idx r') = b
    cases a <;> cases b <;> simp [optLeB] <;> omega

instance rowLeTransInst (idx : Nat) : IsTrans (List Cell) (rowLe idx) where
  trans r1 r2 r3 h1 h2 := by
    unfold rowLe at h1 h2 ⊢
    generalize cellKey (getCell idx r1) = a at h1 ⊢
    generalize cellKey (getCell idx r2) = b at h1 h2
    generalize cellKey (getCell idx r3) = c at h2 ⊢
    cases a <;> cases b <;> cases c <;> simp_all [optLeB] <;> omega

/-- `df.sort_values(by=ts)` (final_app.py line 214); after deduplication the
keys are pairwise distinct, so any comparison sort computes this result. -/
def sort_values (idx : Nat) (rows : List (List Cell)) : List (List Cell) :=
  List.insertionSort (rowLe idx) rows

/-- Lines 212-214 of final_app.py in sequence: normalize the timestamp column,
drop duplicate timestamps keeping the first occurrence, sort chronologically. -/
def normalize_timestamps (idx : Nat) (rows : List (List Cell)) : List (List Cell) :=
  sort_values idx (drop_duplicates idx (to_datetime idx rows))

/-! ## Timestamp column resolution (final_app.py lines 205-209) -/

/-- The fixed allow-list of recognized timestamp labels (final_app.py line 206). -/
def possible_timestamp_columns : List Str :=
  ["Timestamp".data, "UT date and time for measurement center".data]

/-- `next((col for col in column_names if col in possible_timestamp_columns), None)`
(final_app.py line 207): the first column, in schema order, whose name belongs
to the allow-list. -/
def resolveTsColumn (column_names : List Str) : Option Str :=
  column_names.find? fun c => possible_timestamp_columns.contains c

/-- Timestamp resolution as the spec words it, for comparison with
`resolveTsColumn`: the first allow-list label, in allow-list order, that occurs
anywhere in the schema. -/
def resolveTsColumnSpecOrder (column_names : List Str) : Option Str :=
  possible_timestamp_columns.find? fun c => column_names.contains c

/-! ## Session state and `process_selected_file` (final_app.py lines 159-223) -/

/-- A resolved table: column names plus rows of cells. -/
structure DataFrame where
  columns : List Str
  rows : List (List Cell)
deriving DecidableEq

/-- The module-level globals: `uploaded_df` (initialized to an empty frame) and
`timestamp_column` (initialized to `None`). -/
structure Session where
  uploaded_df : DataFrame
  timestamp_column : Option Str
deriving DecidableEq

/-- The three callback outputs: options for the two column dropdowns and the
status message. -/
abbrev ProcessOutput := List Str × List Str × Str

/-- `process_selected_file` (final_app.py lines 169-223) over explicit state.
The input is `none` when no file is selected, otherwise the file URL together
with the fetch result (`Except.error` embeds a raised-and-caught exception
message).  An exception raised inside the `try` — in particular pandas'
`ValueError` on duplicate column names at line 198 — is caught at line 221 and
surfaced as `"Error loading file: ..."` before any global is touched.  The
returned `Session` is the state of the globals afterwards: the code assigns the
global `timestamp_column` before checking it resolved, so the unresolved branch
clobbers it even though `uploaded_df` is kept. -/
def process_selected_file (input : Option (Str × Except Str (List Str)))
    (st : Session) : Session × ProcessOutput :=
  match input with
  | none => (st, ([], [], "No file selected.".data))
  | some (_, .error e) => (st, ([], [], "Error loading file: ".data ++ e))
  | some (file_url, .ok data) =>
    let column_names := extract_column_names data
    match data.findIdx? (fun line => hasPrefixStr (pyStrip line) "202".data) with
    | none => (st, ([], [], "No valid data found in the file.".data))
    | some i =>
      let data_section := data.drop i
      let column_names := reconcile column_names (data_section.headD [])
      match read_csv data_section column_names with
      | .error e => (st, ([], [], "Error loading file: ".data ++ e))
      | .ok df =>
        match resolveTsColumn column_names with
        | none =>
          ({ st with timestamp_column := none },
           ([], [], "No valid timestamp column found in the file.".data))
        | some ts =>
          let idx := column_names.findIdx (fun c => c == ts)
          let table : DataFrame := ⟨column_names, normalize_timestamps idx df⟩
          let numeric_columns := column_names.filter (fun c => !(c == ts))
          (⟨table, some ts⟩,
           (numeric_columns, numeric_columns, "Loaded file: ".data ++ file_url))

/-! ## Dataset Query View (`update_charts`, final_app.py lines 237-262) -/

/-- One plot-ready series: the timestamp cell and value cell of each surviving
row, or `none` for the placeholder figure. -/
abbrev Fig := Option (List (Cell × Cell))

/-- Whether a timestamp cell lies in the inclusive range; `NaT` (and any
non-datetime cell) compares false on both sides, as in pandas. -/
def cellInRange (c : Cell) (s e : Nat) : Bool :=
  match c with
  | .dt (some t) => decide (s ≤ t) && decide (t ≤ e)
  | _ => false

/-- Lines 246-248 of final_app.py: the date filter runs only when *both*
bounds are supplied (`if start_date and end_date`), keeping rows with the
timestamp within the inclusive range. -/
def filter_by_range (idx : Nat) (start_date end_date : Option Nat)
    (rows : List (List Cell)) : List (List Cell) :=
  match start_date, end_date with
  | some s, some e => rows.filter fun r => cellInRange (getCell idx r) s e
  | _, _ => rows

/-- The series `px.line` plots for one selected column. -/
def mkSeries (tsIdx colIdx : Nat) (rows : List (List Cell)) : List (Cell × Cell) :=
  rows.map fun r => (getCell tsIdx r, getCell colIdx r)

/-- `update_charts` (final_app.py lines 237-262) over explicit state: it reads
the globals, works on a copy of the table, and never writes a global, so the
resulting state is the incoming one. -/
def update_charts (column1 column2 : Option Str) (start_date end_date : Option Nat)
    (st : Session) : Session × (Fig × Fig) :=
  if st.uploaded_df.rows.isEmpty ∨ st.timestamp_column = none then (st, (none, none))
  else
    let ts := st.timestamp_column.getD []
    let tsIdx := st.uploaded_df.columns.findIdx (fun c => c == ts)
    let rows := st.uploaded_df.rows
    let rows := filter_by_range tsIdx start_date end_date rows
    let fig1 : Fig := column1.map fun c1 =>
      mkSeries tsIdx (st.uploaded_df.columns.findIdx (fun c => c == c1)) rows
    let fig2 : Fig := column2.map fun c2 =>
      mkSeries tsIdx (st.uploaded_df.columns.findIdx (fun c => c == c2)) rows
    (st, (fig1, fig2))

/-! ## Directory Lister (`list_items`, final_app.py lines 38-51) -/

/-- The qualification test of final_app.py line 46: a hyperlink target counts
iff it starts with `"./"` and with none of the excluded markers. -/
def hrefQualifies (href : Str) : Bool :=
  hasPrefixStr href "./".data &&
    !(hasPrefixStr href "../".data || hasPrefixStr href "../../".data ||
      hasPrefixStr href "javascript".data || hasPrefixStr href "operationfiles".data)

/-- The name cleanup of final_app.py line 47, `href.lstrip("./").rstrip("/")`:
Python `lstrip`/`rstrip` strip a *character set*, so every leading `.` or `/`
and every trailing `/` is removed. -/
def cleanHref (href : Str) : Str :=
  pyRstripSet (pyLstripSet href ['.', '/']) ['/']

/-- The name cleanup as the spec words it, for comparison with `cleanHref`:
remove exactly the leading relative-path marker `"./"` and exactly one
trailing `"/"`. -/
def cleanHrefSpec (href : Str) : Str :=
  let h1 := if hasPrefixStr href "./".data then href.drop 2 else href
  if h1.getLast? = some '/' then h1.dropLast else h1

/-- The body of `list_items` (final_app.py lines 44-48) on the extracted
hyperlink targets: keep the qualifying ones, cleaned up. -/
def list_items (hrefs : List Str) : List Str :=
  (hrefs.filter hrefQualifies).map cleanHref

/-! ## Specification material used only by statements and proofs -/

/-- The value of a little-endian decimal digit list, used to show that
`natRepr` is injective. -/
def ofRevDigits : List Nat → Nat
  | [] => 0
  | d :: ds => d + 10 * ofRevDigits ds

/-- The name the extractor emits for the `k`-th occurrence of a base name:
the bare name first, `base_k` afterwards. -/
def uniqueName (base : Str) (k : Nat) : Str :=
  if k = 0 then base else base ++ '_' :: natRepr k

/-- The loop invariant of `extract_column_names`: the emitted names are
pairwise distinct, every emitted name is `uniqueName b k` for a tracked base
`b` whose counter dominates `k`, and every counter stays below the number of
emitted names. -/
structure ExtractInv (seen : List (Str × Nat)) (names : List Str) : Prop where
  nodup : names.Nodup
  shape : ∀ x ∈ names, ∃ b c k, lookupSeen seen b = some c ∧ k ≤ c ∧
    x = uniqueName b k ∧ '_' ∉ b
  bound : ∀ b c, lookupSeen seen b = some c → c < names.length

/-! # Theorems

General helper lemmas first, then per-claim theorems. -/

/-- A non-matching element survives `dropWhile` iff it was present. -/
theorem mem_dropWhile_iff_of_neg {α : Type} {p : α → Bool} {c : α} (hc : p c = false)
    (l : List α) : c ∈ l.dropWhile p ↔ c ∈ l := by
  constructor
  · exact fun h => (List.dropWhile_sublist p).mem h
  · intro h
    have h2 : c ∈ l.takeWhile p ++ l.dropWhile p := by
      rw [List.takeWhile_append_dropWhile]
      exact h
    rcases List.mem_append.mp h2 with h' | h'
    · exact absurd (List.mem_takeWhile_imp h') (by simp [hc])
    · exact h'

/-- The head surviving `dropWhile` fails the predicate. -/
theorem head?_dropWhile_not {α : Type} (p : α → Bool) (l : List α) {c : α}
    (h : (l.dropWhile p).head? = some c) : p c = false := by
  induction l with
  | nil => simp at h
  | cons a l ih =>
    rw [List.dropWhile_cons] at h
    by_cases ha : p a = true
    · rw [if_pos ha] at h
      exact ih h
    · rw [if_neg ha] at h
      simp only [List.head?_cons, Option.some.injEq] at h
      subst h
      simpa using ha

/-- `find?` returning a hit splits the list at the first match. -/
theorem find?_eq_some_split {α : Type} {p : α → Bool} {l : List α} {a : α}
    (h : l.find? p = some a) :
    ∃ l₁ l₂, l = l₁ ++ a :: l₂ ∧ p a = true ∧ ∀ x ∈ l₁, p x = false := by
  induction l with
  | nil => simp at h
  | cons b bs ih =>
    by_cases hb : p b = true
    · rw [List.find?_cons_of_pos _ hb] at h
      obtain rfl : b = a := by simpa using h
      exact ⟨[], bs, rfl, hb, by simp⟩
    · rw [List.find?_cons_of_neg _ hb] at h
      obtain ⟨l₁, l₂, rfl, hpa, hl₁⟩ := ih h
      exact ⟨b :: l₁, l₂, rfl, hpa, by
        intro x hx
        rcases List.mem_cons.mp hx with rfl | hx
        · simpa using hb
        · exact hl₁ x hx⟩

/-! ## Decimal numerals: `natRepr` is injective and contains no underscore -/

/-- Round trip of the fuelled digit expansion, provided enough fuel. -/
theorem ofRevDigits_natToRevDigits :
    ∀ fuel n : Nat, n < 10 ^ fuel → ofRevDigits (natToRevDigits fuel n) = n := by
  intro fuel
  induction fuel with
  | zero =>
    intro n hn
    rw [pow_zero] at hn
    have h0 : n = 0 := by omega
    subst h0
    rfl
  | succ fuel ih =>
    intro n hn
    by_cases h0 : n = 0
    · subst h0; rfl
    · have hdiv : n / 10 < 10 ^ fuel := by
        rw [Nat.div_lt_iff_lt_mul (by norm_num)]
        calc n < 10 ^ (fuel + 1) := hn
        _ = 10 ^ fuel * 10 := by ring
      simp only [natToRevDigits, h0, if_false, ofRevDigits]
      rw [ih _ hdiv]
      omega

/-- Every digit the fuelled expansion produces is below 10. -/
theorem natToRevDigits_lt :
    ∀ fuel n d : Nat, d ∈ natToRevDigits fuel n → d < 10 := by
  intro fuel
  induction fuel with
  | zero => intro n d hd; simp [natToRevDigits] at hd
  | succ fuel ih =>
    intro n d hd
    by_cases h0 : n = 0
    · simp [natToRevDigits, h0] at hd
    · simp only [natToRevDigits, h0, if_false, List.mem_cons] at hd
      rcases hd with rfl | hd
      · omega
      · exact ih _ _ hd

/-- `digitChar` tells digits apart. -/
theorem digitChar_inj : ∀ d < 10, ∀ e < 10, digitChar d = digitChar e → d = e := by decide

/-- `digitChar` never yields an underscore. -/
theorem digitChar_ne_underscore : ∀ d < 10, digitChar d ≠ '_' := by decide

/-- `map digitChar` is injective on digit lists. -/
theorem map_digitChar_inj :
    ∀ l l' : List Nat, (∀ d ∈ l, d < 10) → (∀ d ∈ l', d < 10) →
      l.map digitChar = l'.map digitChar → l = l' := by
  intro l
  induction l with
  | nil => intro l' _ _ h; cases l' <;> simp_all
  | cons d ds ih =>
    intro l' hl hl' h
    cases l' with
    | nil => simp at h
    | cons e es =>
      simp only [List.map_cons, List.cons.injEq] at h
      have hd : d = e := digitChar_inj d (hl d (by simp)) e (hl' e (by simp)) h.1
      have : ds = es := ih es (fun x hx => hl x (by simp [hx])) (fun x hx => hl' x (by simp [hx])) h.2
      simp [hd, this]

/-- The decimal numeral of a natural number determines it. -/
theorem natRepr_inj {n m : Nat} (h : natRepr n = natRepr m) : n = m := by
  have key : ∀ k : Nat, k ≠ 0 → ((natToRevDigits k k).map digitChar).reverse = ['0'] → False := by
    intro k hk habs
    have : (natToRevDigits k k).map digitChar = ['0'] := by
      have := congrArg List.reverse habs
      simpa using this
    have hdig : natToRevDigits k k = [0] :=
      map_digitChar_inj _ [0] (fun d hd => natToRevDigits_lt _ _ _ hd) (by simp)
        (by simpa [digitChar] using this)
    have := ofRevDigits_natToRevDigits k k (Nat.lt_pow_self (by norm_num) k)
    rw [hdig] at this
    simp [ofRevDigits] at this
    omega
  unfold natRepr at h
  by_cases hn : n = 0 <;> by_cases hm : m = 0
  · omega
  · exact absurd (by simpa [hn, hm] using h.symm) (fun habs => key m hm habs)
  · exact absurd (by simpa [hn, hm] using h) (fun habs => key n hn habs)
  · simp only [hn, hm, if_false] at h
    have hdig : natToRevDigits n n = natToRevDigits m m := by
      have := congrArg List.reverse h
      simp only [List.reverse_reverse] at this
      exact map_digitChar_inj _ _ (fun d hd => natToRevDigits_lt _ _ _ hd)
        (fun d hd => natToRevDigits_lt _ _ _ hd) this
    have h1 := ofRevDigits_natToRevDigits n n (Nat.lt_pow_self (by norm_num) n)
    have h2 := ofRevDigits_natToRevDigits m m (Nat.lt_pow_self (by norm_num) m)
    rw [hdig] at h1
    omega

/-- A decimal numeral never contains an underscore. -/
theorem underscore_not_mem_natRepr (n : Nat) : '_' ∉ natRepr n := by
  unfold natRepr
  by_cases hn : n = 0
  · simp [hn]
  · simp only [hn, if_false, List.mem_reverse, List.mem_map]
    rintro ⟨d, hd, habs⟩
    exact digitChar_ne_underscore d (natToRevDigits_lt _ _ _ hd) habs

/-- Splitting at the first underscore: underscore-free left parts and the
underscore determine the decomposition. -/
theorem append_underscore_inj {b b' r r' : Str} (hb : '_' ∉ b) (hb' : '_' ∉ b')
    (h : b ++ '_' :: r = b' ++ '_' :: r') : b = b' ∧ r = r' := by
  induction b generalizing b' with
  | nil =>
    cases b' with
    | nil => simpa using h
    | cons c bs =>
      exfalso
      simp only [List.nil_append, List.cons_append, List.cons.injEq] at h
      exact hb' (by simp [← h.1])
  | cons c bs ih =>
    cases b' with
    | nil =>
      exfalso
      simp only [List.cons_append, List.nil_append, List.cons.injEq] at h
      exact hb (by simp [h.1])
    | cons c' bs' =>
      simp only [List.cons_append, List.cons.injEq] at h
      obtain ⟨rfl, hrest⟩ := h
      have hbs : '_' ∉ bs := fun hx => hb (by simp [hx])
      have hbs' : '_' ∉ bs' := fun hx => hb' (by simp [hx])
      obtain ⟨rfl, hr⟩ := ih hbs hbs' hrest
      exact ⟨rfl, hr⟩

/-- A first occurrence keeps the bare name. -/
theorem uniqueName_zero (b : Str) : uniqueName b 0 = b := rfl

/-- A repeat gets the underscore-suffixed name. -/
theorem uniqueName_succ (b : Str) (k : Nat) :
    uniqueName b (k + 1) = b ++ '_' :: natRepr (k + 1) := rfl

/-- The disambiguated names are pairwise distinct across both base name and
occurrence index, provided base names carry no underscore. -/
theorem uniqueName_inj {b b' : Str} {k k' : Nat} (hb : '_' ∉ b) (hb' : '_' ∉ b')
    (h : uniqueName b k = uniqueName b' k') : b = b' ∧ k = k' := by
  match k, k' with
  | 0, 0 => exact ⟨h, rfl⟩
  | 0, k' + 1 =>
    exfalso
    rw [uniqueName_zero, uniqueName_succ] at h
    exact hb (by rw [h]; simp)
  | k + 1, 0 =>
    exfalso
    rw [uniqueName_zero, uniqueName_succ] at h
    exact hb' (by rw [← h]; simp)
  | k + 1, k' + 1 =>
    rw [uniqueName_succ, uniqueName_succ] at h
    obtain ⟨hbb, hrepr⟩ := append_underscore_inj hb hb' h
    exact ⟨hbb, by rw [natRepr_inj hrepr]⟩

/-- The padding names are pairwise distinct. -/
theorem mkUnnamed_inj {i j : Nat} (h : mkUnnamed i = mkUnnamed j) : i = j := by
  unfold mkUnnamed at h
  have h2 := append_underscore_inj (show '_' ∉ "Unnamed".data by decide)
    (show '_' ∉ "Unnamed".data by decide) h
  exact natRepr_inj h2.2

/-! ## Assoc-list lemmas for the `seen_names` dict -/

theorem lookupSeen_setSeen_self (m : List (Str × Nat)) (k : Str) (v : Nat) :
    lookupSeen (setSeen m k v) k = some v := by
  induction m with
  | nil => simp [setSeen, lookupSeen]
  | cons p rest ih =>
    obtain ⟨k', v'⟩ := p
    by_cases hk : k' = k
    · simp [setSeen, hk, lookupSeen]
    · simp [setSeen, hk, lookupSeen, ih]

theorem lookupSeen_setSeen_ne (m : List (Str × Nat)) (k : Str) (v : Nat) {k' : Str}
    (h : k' ≠ k) : lookupSeen (setSeen m k v) k' = lookupSeen m k' := by
  have hne : k ≠ k' := fun hx => h hx.symm
  induction m with
  | nil =>
    simp only [setSeen, lookupSeen]
    rw [if_neg hne]
  | cons p rest ih =>
    obtain ⟨k₀, v₀⟩ := p
    by_cases hk : k₀ = k
    · subst hk
      simp only [setSeen, if_pos rfl, lookupSeen]
      rw [if_neg hne, if_neg hne]
    · simp only [setSeen, if_neg hk, lookupSeen]
      by_cases hk' : k₀ = k'
      · rw [if_pos hk', if_pos hk']
      · rw [if_neg hk', if_neg hk', ih]

/-! ## The extractor loop invariant -/

/-- `addName` preserves the extractor invariant. -/
theorem extractInv_addName {seen : List (Str × Nat)} {names : List Str} {base : Str}
    (inv : ExtractInv seen names) (hb : '_' ∉ base) :
    ExtractInv (addName (seen, names) base).1 (addName (seen, names) base).2 := by
  cases hlook : lookupSeen seen base with
  | none =>
    have hred : addName (seen, names) base = (setSeen seen base 0, names ++ [base]) := by
      simp [addName, hlook]
    rw [hred]
    refine ⟨?_, ?_, ?_⟩
    · rw [List.nodup_append]
      refine ⟨inv.nodup, List.nodup_singleton _, ?_⟩
      intro x hx hx'
      have hxb : x = base := by simpa using hx'
      subst hxb
      obtain ⟨b', c', k', hl', _, hxeq, hb'⟩ := inv.shape x hx
      match k', hxeq with
      | 0, hxeq =>
        rw [uniqueName_zero] at hxeq
        rw [← hxeq] at hl'
        rw [hl'] at hlook
        cases hlook
      | k' + 1, hxeq =>
        rw [uniqueName_succ] at hxeq
        exact hb (by rw [hxeq]; simp)
    · intro x hx
      rcases List.mem_append.mp hx with hx | hx
      · obtain ⟨b', c', k', hl', hk', hxeq, hb'⟩ := inv.shape x hx
        have hbne : b' ≠ base := by
          rintro rfl
          rw [hl'] at hlook
          cases hlook
        exact ⟨b', c', k', by rw [lookupSeen_setSeen_ne _ _ _ hbne]; exact hl', hk', hxeq, hb'⟩
      · have hxb : x = base := by simpa using hx
        subst hxb
        exact ⟨x, 0, 0, lookupSeen_setSeen_self _ _ _, Nat.le_refl 0,
          (uniqueName_zero x).symm, hb⟩
    · intro b c hbc
      by_cases hbb : b = base
      · subst hbb
        rw [lookupSeen_setSeen_self] at hbc
        obtain rfl : c = 0 := by simpa using hbc.symm
        simp
      · rw [lookupSeen_setSeen_ne _ _ _ hbb] at hbc
        have := inv.bound b c hbc
        simp only [List.length_append, List.length_singleton]
        omega
  | some c =>
    have hred : addName (seen, names) base =
        (setSeen seen base (c + 1), names ++ [base ++ '_' :: natRepr (c + 1)]) := by
      simp [addName, hlook]
    rw [hred]
    have hnew : (base ++ '_' :: natRepr (c + 1)) = uniqueName base (c + 1) :=
      (uniqueName_succ base c).symm
    refine ⟨?_, ?_, ?_⟩
    · rw [List.nodup_append]
      refine ⟨inv.nodup, List.nodup_singleton _, ?_⟩
      intro x hx hx'
      obtain rfl : x = base ++ '_' :: natRepr (c + 1) := by simpa using hx'
      obtain ⟨b', c', k', hl', hk', hxeq, hb'⟩ := inv.shape _ hx
      rw [hnew] at hxeq
      obtain ⟨rfl, rfl⟩ := uniqueName_inj hb' hb hxeq.symm
      rw [hl'] at hlook
      have hcc : c' = c := by simpa using hlook
      omega
    · intro x hx
      rcases List.mem_append.mp hx with hx | hx
      · obtain ⟨b', c', k', hl', hk', hxeq, hb'⟩ := inv.shape x hx
        by_cases hbb : b' = base
        · subst hbb
          rw [hl'] at hlook
          have hcc : c' = c := by simpa using hlook
          exact ⟨b', c + 1, k', lookupSeen_setSeen_self _ _ _, by omega, hxeq, hb'⟩
        · exact ⟨b', c', k', by rw [lookupSeen_setSeen_ne _ _ _ hbb]; exact hl', hk', hxeq, hb'⟩
      · obtain rfl : x = base ++ '_' :: natRepr (c + 1) := by simpa using hx
        exact ⟨base, c + 1, c + 1, lookupSeen_setSeen_self _ _ _, Nat.le_refl _, hnew, hb⟩
    · intro b c' hbc
      by_cases hbb : b = base
      · subst hbb
        rw [lookupSeen_setSeen_self] at hbc
        obtain rfl : c' = c + 1 := by simpa using hbc.symm
        have := inv.bound _ _ hlook
        simp only [List.length_append, List.length_singleton]
        omega
      · rw [lookupSeen_setSeen_ne _ _ _ hbb] at hbc
        have := inv.bound b c' hbc
        simp only [List.length_append, List.length_singleton]
        omega

/-- The whole extractor loop preserves the invariant. -/
theorem extractInv_foldl (lines : List Str) :
    ∀ seen names, ExtractInv seen names →
      (∀ b ∈ lines.filterMap baseNameOfLine, '_' ∉ b) →
      ExtractInv (lines.foldl extractStep (seen, names)).1
        (lines.foldl extractStep (seen, names)).2 := by
  induction lines with
  | nil => intro seen names inv _; simpa using inv
  | cons line rest ih =>
    intro seen names inv h
    rw [List.foldl_cons]
    cases hline : baseNameOfLine line with
    | none =>
      have hstep : extractStep (seen, names) line = (seen, names) := by
        simp [extractStep, hline]
      rw [hstep]
      refine ih seen names inv fun b hb => h b ?_
      rw [List.filterMap_cons_none hline]
      exact hb
    | some base =>
      have hstep : extractStep (seen, names) line = addName (seen, names) base := by
        simp [extractStep, hline]
      rw [hstep]
      have hbase : '_' ∉ base := h base (by rw [List.filterMap_cons_some hline]; simp)
      have h' : ∀ b ∈ rest.filterMap baseNameOfLine, '_' ∉ b := fun b hb =>
        h b (by rw [List.filterMap_cons_some hline]; simp [hb])
      exact ih _ _ (extractInv_addName inv hbase) h'

/-- The invariant holds of the final extractor state. -/
theorem extract_column_names_inv (lines : List Str)
    (h : ∀ b ∈ lines.filterMap baseNameOfLine, '_' ∉ b) :
    ExtractInv (lines.foldl extractStep ([], [])).1 (extract_column_names lines) := by
  have base_inv : ExtractInv [] [] := by
    refine ⟨List.nodup_nil, by simp, ?_⟩
    intro b c hbc
    simp [lookupSeen] at hbc
  exact extractInv_foldl lines [] [] base_inv h

/-- Every extracted name is a disambiguated base name whose occurrence index is
below the schema length. -/
theorem extract_shape (lines : List Str)
    (h : ∀ b ∈ lines.filterMap baseNameOfLine, '_' ∉ b) :
    ∀ x ∈ extract_column_names lines, ∃ b k, '_' ∉ b ∧ x = uniqueName b k ∧
      k < (extract_column_names lines).length := by
  intro x hx
  obtain ⟨b, c, k, hl, hk, hxeq, hb⟩ := (extract_column_names_inv lines h).shape x hx
  exact ⟨b, k, hb, hxeq,
    lt_of_le_of_lt hk ((extract_column_names_inv lines h).bound b c hl)⟩

/-- Reconciliation padding keeps a schema of disambiguated names duplicate-free:
the synthetic indices start at the schema length, above every occurrence index. -/
theorem reconcile_nodup (names : List Str) (row : Str) (hnd : names.Nodup)
    (hshape : ∀ x ∈ names, ∃ b k, '_' ∉ b ∧ x = uniqueName b k ∧ k < names.length) :
    (reconcile names row).Nodup := by
  show (if names.length < (pySplitWs row).length then
    names ++ (List.range' names.length ((pySplitWs row).length - names.length)).map mkUnnamed
    else names).Nodup
  by_cases hlt : names.length < (pySplitWs row).length
  · rw [if_pos hlt]
    rw [List.nodup_append]
    refine ⟨hnd, ?_, ?_⟩
    · exact (List.nodup_range' _ _).map fun i j hij => mkUnnamed_inj hij
    · intro x hx hx'
      obtain ⟨b, k, hb, hxk, hk⟩ := hshape x hx
      obtain ⟨i, hi, hmi⟩ := List.mem_map.mp hx'
      obtain ⟨j, hj, rfl⟩ := List.mem_range'.mp hi
      rw [hxk] at hmi
      match k, hmi, hk with
      | 0, hmi, hk =>
        rw [uniqueName_zero] at hmi
        unfold mkUnnamed at hmi
        exact hb (by rw [← hmi]; simp)
      | k + 1, hmi, hk =>
        rw [uniqueName_succ] at hmi
        unfold mkUnnamed at hmi
        obtain ⟨hbu, hrepr⟩ := append_underscore_inj (by decide) hb hmi
        have := natRepr_inj hrepr
        omega
  · rw [if_neg hlt]
    exact hnd

/-- C1 fails as stated: a header may declare a base name that collides with a
disambiguation suffix, so the extracted schema repeats a name. -/
theorem c1_counterexample :
    ¬ (extract_column_names ["Column 1: Timestamp".data, "Column 2: Timestamp_1".data,
        "Column 3: Timestamp".data]).Nodup := by decide

/-- C1 (amended): for every header text whose declared base names contain no
underscore character, the extracted column names are pairwise distinct, and the
schema reconciled against any first data line is still pairwise distinct. -/
theorem c1_unique_names (lines : List Str) (sample_row : Str)
    (h : ∀ b ∈ lines.filterMap baseNameOfLine, '_' ∉ b) :
    (extract_column_names lines).Nodup ∧
    (reconcile (extract_column_names lines) sample_row).Nodup :=
  ⟨(extract_column_names_inv lines h).nodup,
    reconcile_nodup _ _ (extract_column_names_inv lines h).nodup (extract_shape lines h)⟩

/-- Witness for C1 (amended) at a concrete duplicated header. -/
theorem c1_unique_names_witness :
    (extract_column_names ["Column 1: Timestamp, UTC".data,
        "Column 1: Timestamp, UTC".data]).Nodup ∧
    (reconcile (extract_column_names ["Column 1: Timestamp, UTC".data,
        "Column 1: Timestamp, UTC".data]) "202 1 2 3".data).Nodup :=
  c1_unique_names _ _ (by decide)

/-- C2: the code violates the no-partial-overwrite requirement.  With a
previously resolved session, a file whose schema yields no timestamp candidate
makes `process_selected_file` fail, yet the global `timestamp_column` has
already been overwritten with `None` while `uploaded_df` keeps the old table. -/
theorem c2_unresolved_clobbers_timestamp :
    process_selected_file (some ("u".data, Except.ok
        ["Column 1: Pressure, mbar".data, "20230101T000000.000000Z 7".data]))
      ⟨⟨["Timestamp".data], [[Cell.dt (some 5)]]⟩, some "Timestamp".data⟩ =
      (⟨⟨["Timestamp".data], [[Cell.dt (some 5)]]⟩, none⟩,
       ([], [], "No valid timestamp column found in the file.".data)) ∧
    (some "Timestamp".data : Option Str) ≠ none := by decide

/-- C3 fails as stated: the code scans the schema in schema order and keeps the
first schema column present in the allow-list, not the first allow-list label
present in the schema.  On a schema listing the verbose label before
`"Timestamp"`, the two policies disagree. -/
theorem c3_counterexample :
    resolveTsColumn ["UT date and time for measurement center".data, "Timestamp".data] =
      some "UT date and time for measurement center".data ∧
    resolveTsColumnSpecOrder ["UT date and time for measurement center".data,
      "Timestamp".data] = some "Timestamp".data ∧
    ("UT date and time for measurement center".data : Str) ≠ "Timestamp".data := by decide

/-- C3 (amended): the designated timestamp column is the first column in
*schema order* whose name belongs to the fixed allow-list; when the reconciled
schema is a valid (duplicate-free) `names` argument but no schema column is a
candidate, resolution yields `none` and `process_selected_file` returns the
user-visible "no valid timestamp column" message; when the reconciled schema
itself is rejected by pandas (duplicate names), the raised `ValueError` is
caught and surfaced as an "Error loading file" message with the session left
untouched — either way a message, not an escaping exception (the embedding is
a total function). -/
theorem c3_schema_order (column_names : List Str) :
    (∀ c, resolveTsColumn column_names = some c →
      c ∈ possible_timestamp_columns ∧
      ∃ l₁ l₂, column_names = l₁ ++ c :: l₂ ∧ ∀ x ∈ l₁, x ∉ possible_timestamp_columns) ∧
    (resolveTsColumn column_names = none ↔
      ∀ c ∈ column_names, c ∉ possible_timestamp_columns) ∧
    (∀ url data st i,
      data.findIdx? (fun line => hasPrefixStr (pyStrip line) "202".data) = some i →
      (reconcile (extract_column_names data) ((data.drop i).headD [])).Nodup →
      resolveTsColumn (reconcile (extract_column_names data) ((data.drop i).headD [])) = none →
      process_selected_file (some (url, Except.ok data)) st =
        ({ st with timestamp_column := none },
         ([], [], "No valid timestamp column found in the file.".data))) ∧
    (∀ url data st i,
      data.findIdx? (fun line => hasPrefixStr (pyStrip line) "202".data) = some i →
      ¬ (reconcile (extract_column_names data) ((data.drop i).headD [])).Nodup →
      process_selected_file (some (url, Except.ok data)) st =
        (st, ([], [],
          "Error loading file: ".data ++ "Duplicate names are not allowed.".data))) := by
  refine ⟨?_, ?_, ?_, ?_⟩
  · intro c hc
    obtain ⟨l₁, l₂, heq, hpc, hl₁⟩ := find?_eq_some_split hc
    refine ⟨by simpa [List.contains] using hpc, l₁, l₂, heq, ?_⟩
    intro x hx
    have := hl₁ x hx
    simpa [List.contains] using this
  · unfold resolveTsColumn
    rw [List.find?_eq_none]
    constructor
    · intro h c hc
      have := h c hc
      simpa [List.contains] using this
    · intro h c hc
      have := h c hc
      simpa [List.contains] using this
  · intro url data st i hidx hnodup hres
    have hcsv : read_csv (data.drop i)
        (reconcile (extract_column_names data) ((data.drop i).headD [])) =
        Except.ok (read_csv_ws (data.drop i)
          (reconcile (extract_column_names data) ((data.drop i).headD []))) := by
      unfold read_csv
      rw [if_pos hnodup]
    simp only [process_selected_file, hidx, hcsv, hres]
  · intro url data st i hidx hnodup
    have hcsv : read_csv (data.drop i)
        (reconcile (extract_column_names data) ((data.drop i).headD [])) =
        Except.error "Duplicate names are not allowed.".data := by
      unfold read_csv
      rw [if_neg hnodup]
    simp only [process_selected_file, hidx, hcsv]

/-- Witness for C3 (amended): a schema with no candidate resolves to `none`. -/
theorem c3_schema_order_witness :
    resolveTsColumn ["Pressure".data] = none ↔
      ∀ c ∈ (["Pressure".data] : List Str), c ∉ possible_timestamp_columns :=
  (c3_schema_order ["Pressure".data]).2.1

/-- C10: querying never mutates the session: `update_charts` reads the globals
and works on a copy, so the stored table and timestamp-column name are exactly
the incoming ones. -/
theorem c10_update_charts_frame (column1 column2 : Option Str)
    (start_date end_date : Option Nat) (st : Session) :
    (update_charts column1 column2 start_date end_date st).1 = st := by
  unfold update_charts
  split <;> rfl

/-- Reconciliation in the under-declared case, written out. -/
theorem reconcile_eq_pad {column_names : List Str} {sample_row : Str}
    (h : column_names.length < (pySplitWs sample_row).length) :
    reconcile column_names sample_row = column_names ++
      (List.range' column_names.length
        ((pySplitWs sample_row).length - column_names.length)).map mkUnnamed := by
  show (if column_names.length < (pySplitWs sample_row).length then
    column_names ++ (List.range' column_names.length
      ((pySplitWs sample_row).length - column_names.length)).map mkUnnamed
    else column_names) = _
  rw [if_pos h]

/-- Reconciliation in the fully-declared case, written out. -/
theorem reconcile_eq_self {column_names : List Str} {sample_row : Str}
    (h : (pySplitWs sample_row).length ≤ column_names.length) :
    reconcile column_names sample_row = column_names := by
  show (if column_names.length < (pySplitWs sample_row).length then
    column_names ++ (List.range' column_names.length
      ((pySplitWs sample_row).length - column_names.length)).map mkUnnamed
    else column_names) = _
  rw [if_neg (by omega)]

/-- C5: when the declared names undercount the first data line's whitespace
fields, the reconciled schema has exactly the token count, keeps the declared
names in place, and fills slot `i` with `Unnamed_i` for `i` from the old
length up to `tokenCount - 1`; when the declared names suffice, the list is
returned unchanged with no truncation. -/
theorem c5_reconcile (column_names : List Str) (sample_row : Str) :
    (column_names.length < (pySplitWs sample_row).length →
      (reconcile column_names sample_row).length = (pySplitWs sample_row).length ∧
      (∀ j, j < column_names.length →
        (reconcile column_names sample_row).getD j [] = column_names.getD j []) ∧
      (∀ i, column_names.length ≤ i → i < (pySplitWs sample_row).length →
        (reconcile column_names sample_row).getD i [] = mkUnnamed i)) ∧
    ((pySplitWs sample_row).length ≤ column_names.length →
      reconcile column_names sample_row = column_names) := by
  constructor
  · intro hlt
    rw [reconcile_eq_pad hlt]
    refine ⟨?_, ?_, ?_⟩
    · simp only [List.length_append, List.length_map, List.length_range']
      omega
    · intro j hj
      rw [List.getD_append _ _ _ _ hj]
    · intro i hi hi'
      rw [List.getD_append_right _ _ _ _ (by simpa using hi)]
      have hlen : i - column_names.length <
          ((List.range' column_names.length
            ((pySplitWs sample_row).length - column_names.length)).map mkUnnamed).length := by
        simp only [List.length_map, List.length_range']
        omega
      rw [List.getD_eq_getElem _ _ hlen]
      rw [List.getElem_map]
      rw [List.getElem_range'_1]
      have : column_names.length + (i - column_names.length) = i := by omega
      rw [this]
  · exact reconcile_eq_self

/-- Witness for C5 at a concrete under-declared schema. -/
theorem c5_reconcile_witness :
    (reconcile [List.cons 'A' []] "1 2 3".data).length = (pySplitWs "1 2 3".data).length ∧
    (reconcile [List.cons 'A' []] "1 2 3".data).getD 2 [] = mkUnnamed 2 := by
  have h := (c5_reconcile [['A']] "1 2 3".data).1 (by decide)
  exact ⟨h.1, h.2.2 2 (by decide) (by decide)⟩

/-- C6 fails as stated: with only a start bound supplied, the code applies no
filter at all, so a row below the bound still reaches the plotted series. -/
theorem c6_counterexample :
    (update_charts (some "P".data) none (some 20) none
      ⟨⟨["Timestamp".data, "P".data],
        [[Cell.dt (some 10), Cell.str "a".data],
         [Cell.dt (some 20), Cell.str "b".data],
         [Cell.dt (some 30), Cell.str "c".data]]⟩, some "Timestamp".data⟩).2.1 =
      some [(Cell.dt (some 10), Cell.str "a".data),
            (Cell.dt (some 20), Cell.str "b".data),
            (Cell.dt (some 30), Cell.str "c".data)] ∧
    (10 : Nat) < 20 := by decide

/-- C6 (amended): the date filter applies only when both bounds are supplied,
and then it keeps exactly the rows whose timestamp lies within the inclusive
range; when either bound is missing, the rows pass through unfiltered. -/
theorem c6_range_filter (idx : Nat) (rows : List (List Cell)) :
    (∀ s e r, r ∈ filter_by_range idx (some s) (some e) rows ↔
      r ∈ rows ∧ ∃ t, getCell idx r = Cell.dt (some t) ∧ s ≤ t ∧ t ≤ e) ∧
    (∀ start_date end_date : Option Nat, start_date = none ∨ end_date = none →
      filter_by_range idx start_date end_date rows = rows) := by
  constructor
  · intro s e r
    unfold filter_by_range
    rw [List.mem_filter]
    constructor
    · rintro ⟨hr, hc⟩
      refine ⟨hr, ?_⟩
      revert hc
      unfold cellInRange
      cases hcell : getCell idx r with
      | str v => intro hc; simp at hc
      | nan => intro hc; simp at hc
      | dt v =>
        cases v with
        | none => intro hc; simp at hc
        | some t =>
          intro hc
          simp only [Bool.and_eq_true, decide_eq_true_eq] at hc
          exact ⟨t, rfl, hc.1, hc.2⟩
    · rintro ⟨hr, t, hcell, hs, he⟩
      refine ⟨hr, ?_⟩
      unfold cellInRange
      rw [hcell]
      simp [hs, he]
  · intro start_date end_date h
    unfold filter_by_range
    rcases h with rfl | rfl
    · rfl
    · cases start_date <;> rfl

/-- Witness for C6 (amended): the inclusive filter keeps an in-range row. -/
theorem c6_range_filter_witness :
    [Cell.dt (some 20)] ∈ filter_by_range 0 (some 20) (some 30) [[Cell.dt (some 20)]] :=
  ((c6_range_filter 0 [[Cell.dt (some 20)]]).1 20 30 [Cell.dt (some 20)]).mpr
    ⟨by decide, 20, by decide, by decide, by decide⟩

/-- C7: a fetched file with no line whose stripped text starts with "202"
resolves to the user-visible "no valid data" message, leaves the session
untouched, and raises no exception (the embedding is a total function). -/
theorem c7_no_data_section (url : Str) (data : List Str) (st : Session)
    (h : ∀ line ∈ data, hasPrefixStr (pyStrip line) "202".data = false) :
    process_selected_file (some (url, Except.ok data)) st =
      (st, ([], [], "No valid data found in the file.".data)) := by
  have hidx : data.findIdx? (fun line => hasPrefixStr (pyStrip line) "202".data) = none := by
    rw [List.findIdx?_eq_none_iff]
    intro line hline
    simpa using h line hline
  simp only [process_selected_file, hidx]

/-- Witness for C7 at a concrete header-only file. -/
theorem c7_no_data_section_witness :
    process_selected_file (some ("u".data, Except.ok ["Column 1: Pressure".data]))
      ⟨⟨["Timestamp".data], [[Cell.dt (some 5)]]⟩, some "Timestamp".data⟩ =
      (⟨⟨["Timestamp".data], [[Cell.dt (some 5)]]⟩, some "Timestamp".data⟩,
       ([], [], "No valid data found in the file.".data)) :=
  c7_no_data_section _ _ _ (by decide)

/-- A non-whitespace character survives `pyStrip` exactly when it occurs. -/
theorem mem_pyStrip_iff {c : Char} (hc : c.isWhitespace = false) (s : Str) :
    c ∈ pyStrip s ↔ c ∈ s := by
  unfold pyStrip
  rw [List.mem_reverse, mem_dropWhile_iff_of_neg hc, List.mem_reverse,
    mem_dropWhile_iff_of_neg hc]

/-- C8: a header line contributes a column name iff its stripped text starts
with "Column", does not start with "From", and contains a colon; on the
three-line scenario the extractor yields exactly
`["Timestamp", "Pressure", "Timestamp_1"]`, truncating at the comma and
suffixing the repeated base name. -/
theorem c8_header_extraction :
    (∀ line : Str, (baseNameOfLine line).isSome ↔
      (hasPrefixStr (pyStrip line) "Column".data = true ∧
       hasPrefixStr (pyStrip line) "From".data = false ∧ ':' ∈ pyStrip line)) ∧
    extract_column_names ["Column 1: Timestamp, UTC".data, "Column 2: Pressure, mbar".data,
      "Column 1: Timestamp, UTC".data] =
      ["Timestamp".data, "Pressure".data, "Timestamp_1".data] := by
  refine ⟨?_, by decide⟩
  intro line
  rw [mem_pyStrip_iff (by decide)]
  unfold baseNameOfLine isColumnDeclLine splitAfterColon
  by_cases h3 : ':' ∈ line <;>
    by_cases h1 : hasPrefixStr (pyStrip line) "Column".data <;>
      by_cases h2 : hasPrefixStr (pyStrip line) "From".data <;>
        simp [h1, h2, h3]

/-! ## C4: deduplication and chronological ordering -/

/-- Every row kept by the deduplication scan has an unseen key. -/
theorem dropDupGo_key_not_seen (idx : Nat) (rows : List (List Cell)) :
    ∀ seen, ∀ r ∈ dropDupGo idx seen rows, getCell idx r ∉ seen := by
  induction rows with
  | nil => intro seen r hr; simp [dropDupGo] at hr
  | cons r0 rs ih =>
    intro seen r hr
    unfold dropDupGo at hr
    by_cases h0 : getCell idx r0 ∈ seen
    · rw [if_pos h0] at hr
      exact ih seen r hr
    · rw [if_neg h0] at hr
      rcases List.mem_cons.mp hr with rfl | hr
      · exact h0
      · have := ih (getCell idx r0 :: seen) r hr
        exact fun hs => this (List.mem_cons_of_mem _ hs)

/-- A row survives the deduplication scan iff its key is fresh and it is the
first row of the input carrying its key. -/
theorem mem_dropDupGo (idx : Nat) (rows : List (List Cell)) :
    ∀ seen r, r ∈ dropDupGo idx seen rows ↔
      (getCell idx r ∉ seen ∧
       rows.find? (fun r' => getCell idx r' == getCell idx r) = some r) := by
  induction rows with
  | nil => intro seen r; simp [dropDupGo]
  | cons r0 rs ih =>
    intro seen r
    unfold dropDupGo
    by_cases hkey : getCell idx r0 = getCell idx r
    · rw [List.find?_cons_of_pos _ (by simpa using hkey)]
      by_cases h0 : getCell idx r0 ∈ seen
      · rw [if_pos h0]
        constructor
        · intro hmem
          exact absurd (hkey ▸ h0) (dropDupGo_key_not_seen idx rs seen r hmem)
        · rintro ⟨hns, hr⟩
          obtain rfl : r0 = r := by simpa using hr
          exact absurd (hkey ▸ h0) hns
      · rw [if_neg h0]
        constructor
        · intro hmem
          rcases List.mem_cons.mp hmem with rfl | hmem
          · exact ⟨hkey ▸ h0, rfl⟩
          · exact absurd (by rw [← hkey]; exact List.mem_cons_self _ _)
              (dropDupGo_key_not_seen idx rs (getCell idx r0 :: seen) r hmem)
        · rintro ⟨hns, hr⟩
          obtain rfl : r0 = r := by simpa using hr
          exact List.mem_cons_self _ _
    · rw [List.find?_cons_of_neg _ (by simpa using hkey)]
      by_cases h0 : getCell idx r0 ∈ seen
      · rw [if_pos h0]
        rw [ih seen r]
      · rw [if_neg h0]
        rw [List.mem_cons, ih (getCell idx r0 :: seen) r]
        constructor
        · rintro (rfl | ⟨hns, hr⟩)
          · exact absurd rfl hkey
          · exact ⟨fun hs => hns (List.mem_cons_of_mem _ hs), hr⟩
        · rintro ⟨hns, hr⟩
          right
          refine ⟨?_, hr⟩
          rw [List.mem_cons]
          rintro (heq | hs)
          · exact hkey heq.symm
          · exact hns hs

/-- The deduplication scan leaves pairwise-distinct keys. -/
theorem dropDupGo_keys_nodup (idx : Nat) (rows : List (List Cell)) :
    ∀ seen, ((dropDupGo idx seen rows).map (getCell idx)).Nodup := by
  induction rows with
  | nil => intro seen; simp [dropDupGo]
  | cons r0 rs ih =>
    intro seen
    unfold dropDupGo
    by_cases h0 : getCell idx r0 ∈ seen
    · rw [if_pos h0]
      exact ih seen
    · rw [if_neg h0]
      rw [List.map_cons, List.nodup_cons]
      refine ⟨?_, ih _⟩
      intro hmem
      obtain ⟨r, hr, hkeyr⟩ := List.mem_map.mp hmem
      exact dropDupGo_key_not_seen idx rs (getCell idx r0 :: seen) r hr
        (by rw [hkeyr]; exact List.mem_cons_self _ _)

/-- C4: after timestamp normalization, deduplication and sorting, no two rows
carry an equal timestamp cell, the rows are non-decreasing in timestamp order
(`NaT` last), deduplication keeps exactly the first occurrence in file order,
and the three-row scenario with a duplicated first timestamp resolves to
exactly the two expected rows sorted ascending. -/
theorem c4_normalize (idx : Nat) (rows : List (List Cell)) :
    ((normalize_timestamps idx rows).map (getCell idx)).Nodup ∧
    List.Sorted (rowLe idx) (normalize_timestamps idx rows) ∧
    (∀ r, r ∈ drop_duplicates idx (to_datetime idx rows) ↔
      (to_datetime idx rows).find? (fun r' => getCell idx r' == getCell idx r) = some r) ∧
    normalize_timestamps 0 (read_csv_ws
      ["20230101T000000.000000Z 1013.2".data, "20230101T000000.000000Z 1014.0".data,
       "20230102T000000.000000Z 1012.5".data] ["Timestamp".data, "Pressure".data]) =
      [[Cell.dt (some 20230101000000000000), Cell.str "1013.2".data],
       [Cell.dt (some 20230102000000000000), Cell.str "1012.5".data]] := by
  refine ⟨?_, List.sorted_insertionSort _ _, ?_, by decide⟩
  · have hperm : List.Perm (normalize_timestamps idx rows)
        (drop_duplicates idx (to_datetime idx rows)) :=
      List.perm_insertionSort _ _
    rw [(hperm.map (getCell idx)).nodup_iff]
    exact dropDupGo_keys_nodup idx _ []
  · intro r
    have := mem_dropDupGo idx (to_datetime idx rows) [] r
    simpa [drop_duplicates] using this

/-- C9 fails as stated: Python `lstrip("./")` strips the character set, not the
literal prefix, so a qualifying link to a dot-named directory loses its leading
dot, unlike the spec's exact-prefix removal. -/
theorem c9_counterexample :
    hrefQualifies "./.hidden/".data = true ∧
    cleanHref "./.hidden/".data = "hidden".data ∧
    cleanHrefSpec "./.hidden/".data = ".hidden".data ∧
    cleanHref "./.hidden/".data ≠ cleanHrefSpec "./.hidden/".data := by decide

/-- C9 (amended): the Directory Lister's cleanup removes every leading
character in the set `{'.', '/'}` and every trailing `'/'` character — exactly
those, and nothing interior: the produced name is a contiguous slice of the
link target whose first character is outside the set and whose last character
is not a slash. -/
theorem c9_strip_sets (href : Str) :
    (∃ leading trailing, href = leading ++ cleanHref href ++ trailing ∧
      (∀ c ∈ leading, c = '.' ∨ c = '/') ∧ (∀ c ∈ trailing, c = '/')) ∧
    (∀ c, (cleanHref href).head? = some c → ¬(c = '.' ∨ c = '/')) ∧
    (∀ c, (cleanHref href).getLast? = some c → c ≠ '/') := by
  have hT : pyLstripSet href ['.', '/'] = cleanHref href ++
      ((pyLstripSet href ['.', '/']).reverse.takeWhile
        (fun c => c ∈ (['/'] : List Char))).reverse := by
    have h2 := List.takeWhile_append_dropWhile
      (fun c => decide (c ∈ (['/'] : List Char))) (pyLstripSet href ['.', '/']).reverse
    have h3 := congrArg List.reverse h2
    rw [List.reverse_append, List.reverse_reverse] at h3
    exact h3.symm
  have hH : href = href.takeWhile (fun c => c ∈ (['.', '/'] : List Char)) ++
      pyLstripSet href ['.', '/'] :=
    (List.takeWhile_append_dropWhile
      (fun c => decide (c ∈ (['.', '/'] : List Char))) href).symm
  refine ⟨?_, ?_, ?_⟩
  · refine ⟨href.takeWhile (fun c => c ∈ (['.', '/'] : List Char)),
      ((pyLstripSet href ['.', '/']).reverse.takeWhile
        (fun c => c ∈ (['/'] : List Char))).reverse, ?_, ?_, ?_⟩
    · conv_lhs => rw [hH, hT]
      rw [List.append_assoc]
    · intro c hc
      have := List.mem_takeWhile_imp hc
      simpa using this
    · intro c hc
      rw [List.mem_reverse] at hc
      have := List.mem_takeWhile_imp hc
      simpa using this
  · intro c hc
    cases hclean : cleanHref href with
    | nil => rw [hclean] at hc; cases hc
    | cons a cl =>
      rw [hclean] at hc
      obtain rfl : a = c := by simpa using hc
      have hhead : (pyLstripSet href ['.', '/']).head? = some a := by
        rw [hT, hclean]
        rfl
      have := head?_dropWhile_not
        (fun c => decide (c ∈ (['.', '/'] : List Char))) href hhead
      simpa using this
  · intro c hc
    have hrev : (cleanHref href).reverse.head? = some c := by
      rw [List.head?_reverse]
      exact hc
    have hclean_rev : (cleanHref href).reverse =
        (pyLstripSet href ['.', '/']).reverse.dropWhile
          (fun c => c ∈ (['/'] : List Char)) := by
      show (pyRstripSet (pyLstripSet href ['.', '/']) ['/']).reverse = _
      unfold pyRstripSet
      rw [List.reverse_reverse]
    rw [hclean_rev] at hrev
    have := head?_dropWhile_not
      (fun c => decide (c ∈ (['/'] : List Char))) _ hrev
    simpa using this
